/-
Verification of the `formenc` form codec (github.com/tomasbasham/formenc).

This file gives a shallow embedding of the package's structural mapping
engine in Lean 4 and proves / refutes the specification claims about it.

Modelling conventions:
* Go strings are modelled as Lean `String` / `List Char`.  All inputs in the
  claims are ASCII, so the byte/code-point distinction is immaterial; where
  percent-escaping must work per UTF-8 byte, we encode characters to their
  UTF-8 bytes explicitly.
* Fallible Go code returning `error` is modelled with the `Res` outcome type
  below; a Go `panic` is a distinct outcome from a returned error.
* Go maps (`url.Values`, `map[string]T`) are modelled as association lists
  with pairwise-distinct keys.  Go's map iteration order is unspecified, so
  a Go map corresponds to an association list considered up to permutation
  of its entries; functions iterate in list order, and claims that depend on
  iteration order are stated over all permutations.
-/
import Mathlib

namespace Formenc

/-- Outcome of a fallible Go computation: a normal result, a returned
`error`, or a runtime panic.  Returned errors and panics are distinct
channels in Go, so they are distinct constructors here. -/
inductive Res (α : Type) where
  | ok (a : α)
  | err (msg : String)
  | panic (msg : String)
  deriving DecidableEq, Repr

namespace Res

def bind {α β : Type} : Res α → (α → Res β) → Res β
  | ok a, f => f a
  | err m, _ => err m
  | panic m, _ => panic m

def map {α β : Type} (f : α → β) : Res α → Res β
  | ok a => ok (f a)
  | err m => err m
  | panic m => panic m

instance : Monad Res where
  pure := ok
  bind := bind
  map := map

/-- `true` exactly when the computation returned a Go `error` value. -/
def isErr {α : Type} : Res α → Bool
  | err _ => true
  | _ => false

/-- `true` exactly when the computation panicked. -/
def isPanic {α : Type} : Res α → Bool
  | panic _ => true
  | _ => false

@[simp] theorem bind_ok {α β : Type} (a : α) (f : α → Res β) :
    bind (ok a) f = f a := rfl

@[simp] theorem map_ok {α β : Type} (f : α → β) (a : α) :
    map f (ok a) = ok (f a) := rfl

@[simp] theorem isErr_map {α β : Type} (f : α → β) (r : Res α) :
    (map f r).isErr = r.isErr := by cases r <;> rfl

end Res

/-! ## Path parser (src/path.go) -/

/-- One segment of a bracketed form key.  `index = true` models the Go
`pathSegment{Index: true}` produced by an empty bracket group `[]`. -/
structure pathSegment where
  key : String
  index : Bool
  deriving DecidableEq, Repr

/-- Split a list at the first occurrence of `c`, returning the part before
and the part after it.  Models `strings.IndexByte` followed by the slicing
`key[:i]` / `key[i+1:]` in `parseKey`. -/
def splitFirst (c : Char) : List Char → Option (List Char × List Char)
  | [] => none
  | x :: xs =>
    if x = c then some ([], xs)
    else (splitFirst c xs).map (fun p => (x :: p.1, p.2))

theorem splitFirst_none_iff (c : Char) (l : List Char) :
    splitFirst c l = none ↔ c ∉ l := by
  induction l with
  | nil => simp [splitFirst]
  | cons x xs ih =>
    by_cases hx : x = c
    · subst hx; simp [splitFirst]
    · simp only [splitFirst, if_neg hx, List.mem_cons]
      rw [Option.map_eq_none', ih]
      constructor
      · intro h hc
        rcases hc with hc | hc
        · exact hx hc.symm
        · exact h hc
      · intro h hc
        exact h (Or.inr hc)

theorem splitFirst_some (c : Char) (l a b : List Char)
    (h : splitFirst c l = some (a, b)) : l = a ++ c :: b ∧ c ∉ a := by
  induction l generalizing a b with
  | nil => simp [splitFirst] at h
  | cons x xs ih =>
    by_cases hx : x = c
    · subst hx
      simp only [splitFirst, if_pos rfl] at h
      cases h
      simp
    · simp only [splitFirst, if_neg hx] at h
      cases hsf : splitFirst c xs with
      | none => rw [hsf] at h; simp at h
      | some p =>
        rw [hsf] at h
        obtain ⟨p1, p2⟩ := p
        simp only [Option.map_some', Option.some.injEq, Prod.mk.injEq] at h
        obtain ⟨ha, hb⟩ := h
        obtain ⟨hxs, hnotin⟩ := ih p1 p2 hsf
        subst ha; subst hb
        refine ⟨by simp [hxs], ?_⟩
        intro hmem
        rcases List.mem_cons.mp hmem with h1 | h2
        · exact hx h1.symm
        · exact hnotin h2

theorem splitFirst_some_length (c : Char) (l a b : List Char)
    (h : splitFirst c l = some (a, b)) : b.length < l.length := by
  have := (splitFirst_some c l a b h).1
  subst this
  simp only [List.length_append, List.length_cons]
  omega

/-- The path parser, `parseKey` from src/path.go, over `List Char`.
Scans left to right: text before the first `[` (if non-empty) becomes a
named segment; each `[...]` group becomes one segment (empty contents give
an index marker); a `[` with no matching `]` is a syntax error. -/
def parseKeyAux (key : List Char) : Res (List pathSegment) :=
  match hk : key with
  | [] => .ok []
  | _ :: _ =>
    match h1 : splitFirst '[' key with
    | none => .ok [⟨String.mk key, false⟩]
    | some (before, after) =>
      match h2 : splitFirst ']' after with
      | none => .err "form: invalid key syntax"
      | some (part, rest) =>
        let pre : List pathSegment :=
          if before = [] then [] else [⟨String.mk before, false⟩]
        let seg : pathSegment :=
          if part = [] then ⟨"", true⟩ else ⟨String.mk part, false⟩
        (parseKeyAux rest).map (fun ps => pre ++ seg :: ps)
  termination_by key.length
  decreasing_by
    subst hk
    have hlt1 := splitFirst_some_length _ _ _ _ h1
    have hlt2 := splitFirst_some_length _ _ _ _ h2
    omega

/-- `parseKey` on Go strings. -/
def parseKey (key : String) : Res (List pathSegment) :=
  parseKeyAux key.data

/-- Decidable form of "the key contains a `[` with no `]` anywhere after
it" — the syntax-error condition of the spec. -/
def hasUnmatched : List Char → Bool
  | [] => false
  | c :: rest => (c = '[' && decide (']' ∉ rest)) || hasUnmatched rest

theorem hasUnmatched_iff (l : List Char) :
    hasUnmatched l = true ↔ ∃ pre suf, l = pre ++ '[' :: suf ∧ ']' ∉ suf := by
  induction l with
  | nil =>
    simp only [hasUnmatched]
    constructor
    · intro h; cases h
    · rintro ⟨pre, suf, h, -⟩
      exact absurd h (by simp)
  | cons x xs ih =>
    simp only [hasUnmatched, Bool.or_eq_true, Bool.and_eq_true,
      decide_eq_true_eq]
    constructor
    · rintro (⟨hx, hc⟩ | h)
      · exact ⟨[], xs, by simp [hx], hc⟩
      · obtain ⟨pre, suf, hl, hns⟩ := ih.mp h
        exact ⟨x :: pre, suf, by simp [hl], hns⟩
    · rintro ⟨pre, suf, hl, hns⟩
      cases pre with
      | nil =>
        simp only [List.nil_append, List.cons.injEq] at hl
        exact Or.inl ⟨hl.1, hl.2 ▸ hns⟩
      | cons y pre =>
        simp only [List.cons_append, List.cons.injEq] at hl
        exact Or.inr (ih.mpr ⟨pre, suf, hl.2, hns⟩)

theorem hasUnmatched_cons_of (x : Char) (l : List Char)
    (h : hasUnmatched l = true) : hasUnmatched (x :: l) = true := by
  simp [hasUnmatched, h]

theorem hasUnmatched_append_of_mem (xs ys : List Char) (h : ']' ∈ ys) :
    hasUnmatched (xs ++ ys) = hasUnmatched ys := by
  induction xs with
  | nil => rfl
  | cons x xs ih =>
    have hstep : (x :: xs) ++ ys = x :: (xs ++ ys) := rfl
    rw [hstep]
    simp only [hasUnmatched]
    have hmem : ']' ∈ xs ++ ys := List.mem_append_right _ h
    simp [hmem, ih]

theorem hasUnmatched_open_no_close (xs ys : List Char) (h : ']' ∉ ys) :
    hasUnmatched (xs ++ '[' :: ys) = true := by
  induction xs with
  | nil =>
    simp only [List.nil_append, hasUnmatched, Bool.or_eq_true]
    exact Or.inl (by simp [h])
  | cons x xs ih =>
    exact hasUnmatched_cons_of x _ ih

theorem hasUnmatched_of_no_open (l : List Char) (h : '[' ∉ l) :
    hasUnmatched l = false := by
  induction l with
  | nil => rfl
  | cons x xs ih =>
    simp only [List.mem_cons] at h
    push_neg at h
    obtain ⟨h1, h2⟩ := h
    have hx : ¬(x = '[') := fun hx => h1 hx.symm
    simp [hasUnmatched, hx, ih h2]

theorem parseKeyAux_isErr_aux :
    ∀ (n : Nat) (key : List Char), key.length ≤ n →
      (parseKeyAux key).isErr = hasUnmatched key := by
  intro n
  induction n with
  | zero =>
    intro key hlen
    have hkey : key = [] := List.eq_nil_of_length_eq_zero (Nat.le_zero.mp hlen)
    subst hkey
    rw [parseKeyAux.eq_def]
    rfl
  | succ n ih =>
    intro key hlen
    rw [parseKeyAux.eq_def]
    split
    · rfl
    · rename_i x xs
      split
      · rename_i h1
        rw [hasUnmatched_of_no_open _ ((splitFirst_none_iff _ _).mp h1)]
        rfl
      · rename_i before after h1
        obtain ⟨hkey, -⟩ := splitFirst_some _ _ _ _ h1
        split
        · rename_i h2
          have hnc : ']' ∉ after := (splitFirst_none_iff _ _).mp h2
          rw [hkey, hasUnmatched_open_no_close _ _ hnc]
          rfl
        · rename_i part rest h2
          obtain ⟨hafter, -⟩ := splitFirst_some _ _ _ _ h2
          rw [Res.isErr_map]
          have hrest : rest.length ≤ n := by
            have h1l := splitFirst_some_length _ _ _ _ h1
            have h2l := splitFirst_some_length _ _ _ _ h2
            omega
          rw [ih rest hrest]
          have hk2 : x :: xs = (before ++ '[' :: part) ++ ']' :: rest := by
            rw [hkey, hafter]
            simp
          rw [hk2, hasUnmatched_append_of_mem _ _ (by simp)]
          simp [hasUnmatched]

theorem parseKeyAux_isErr (key : List Char) :
    (parseKeyAux key).isErr = hasUnmatched key :=
  parseKeyAux_isErr_aux key.length key (Nat.le_refl _)

/-- `parseKey` never panics: it either returns a path or a syntax error. -/
theorem parseKeyAux_not_panic :
    ∀ (n : Nat) (key : List Char), key.length ≤ n →
      (parseKeyAux key).isPanic = false := by
  intro n
  induction n with
  | zero =>
    intro key hlen
    have hkey : key = [] := List.eq_nil_of_length_eq_zero (Nat.le_zero.mp hlen)
    subst hkey
    rw [parseKeyAux.eq_def]
    rfl
  | succ n ih =>
    intro key hlen
    rw [parseKeyAux.eq_def]
    split
    · rfl
    · rename_i x xs
      split
      · rfl
      · rename_i before after h1
        split
        · rfl
        · rename_i part rest h2
          have hrest : rest.length ≤ n := by
            have h1l := splitFirst_some_length _ _ _ _ h1
            have h2l := splitFirst_some_length _ _ _ _ h2
            omega
          have := ih rest hrest
          cases hr : parseKeyAux rest with
          | ok ps => rfl
          | err m => rfl
          | panic m => rw [hr] at this; cases this

/-! ## Charwise string helpers

Lean's own `String.trim`, `String.splitOn`, … are compiled by well-founded
recursion and do not reduce definitionally; these structurally recursive
equivalents (for the single-character separators the source uses) keep every
model computation evaluable. -/

/-- `strings.TrimSpace` (ASCII whitespace). -/
def trimSpace (s : String) : String :=
  String.mk (((s.data.dropWhile Char.isWhitespace).reverse.dropWhile
    Char.isWhitespace).reverse)

/-- `strings.Split` with a one-character separator: always at least one
(possibly empty) piece. -/
def splitOnChar (sep : Char) : List Char → List (List Char)
  | [] => [[]]
  | c :: cs =>
    let r := splitOnChar sep cs
    if c = sep then [] :: r
    else
      match r with
      | g :: gs => (c :: g) :: gs
      | [] => [[c]]

def splitStr (sep : Char) (s : String) : List String :=
  (splitOnChar sep s.data).map String.mk

/-- `strings.Contains` for a one-character needle. -/
def containsChar (s : String) (c : Char) : Bool :=
  s.data.any (· = c)

/-- `strings.Join` / the `&`-joining of `url.Values.Encode`. -/
def joinSep (sep : String) : List String → String
  | [] => ""
  | [x] => x
  | x :: xs => x ++ sep ++ joinSep sep xs

/-! ## Struct tags (src/tags.go) -/

/-- Parsed `form:"..."` tag of one struct field. -/
structure TagRec where
  name : String
  omitEmpty : Bool
  ignored : Bool
  deriving DecidableEq, Repr

/-- `parseTag` from src/tags.go: `"-"` means ignore; the first
comma-separated part is the name (or `-` for ignore); later parts may be
the flags `omitempty` or `ignore`; anything else is silently dropped. -/
def parseTag (s : String) : TagRec :=
  let s := trimSpace s
  if s = "-" then ⟨"", false, true⟩
  else
    match splitStr ',' s with
    | [] => ⟨"", false, true⟩
    | name0 :: parts =>
      let base : TagRec :=
        if trimSpace name0 = "-" then ⟨"", false, true⟩
        else ⟨trimSpace name0, false, false⟩
      parts.foldl
        (fun t p =>
          match trimSpace p with
          | "omitempty" => { t with omitEmpty := true }
          | "ignore" => { t with ignored := true }
          | _ => t)
        base

/-- The pure computation done by `tags` in src/tags.go for a struct type,
given its fields as (declared field name, raw tag string) pairs: parse each
tag, defaulting an empty name of a non-ignored field to the declared field
name.  (The `sync.Map` caching around this computation is modelled
separately; see the cache protocol at the end of this file.) -/
def tagsOfFields (fs : List (String × String)) : List TagRec :=
  fs.map fun f =>
    let t := parseTag f.2
    if !t.ignored && t.name = "" then { t with name := f.1 } else t

/-! ## Go types and values

The decode engine dispatches on the reflected kind of the target; the model
carries an explicit type alongside each value.  Kinds not exercised by any
claim (unsigned integers, floats) are left out of the modelled universe;
channel, function and complex kinds are included because the encode engine's
error behaviour on them is claimed. -/

inductive GoType where
  | stringT
  | intT (bits : Nat)
  | boolT
  /-- A struct type: list of (declared field name, raw `form` tag, type). -/
  | structT (fields : List (String × String × GoType))
  /-- A string-keyed map type with the given element type. -/
  | mapT (elem : GoType)
  | sliceT (elem : GoType)
  /-- `interface{}` — the dynamic type. -/
  | ifaceT
  | ptrT (elem : GoType)
  | chanT
  | funcT
  | complexT
  deriving Repr

inductive GoVal where
  | str (s : String)
  | intV (bits : Nat) (n : Int)
  | boolV (b : Bool)
  /-- A struct value: (declared field name, raw `form` tag, value) per field. -/
  | structV (fields : List (String × String × GoVal))
  /-- A string-keyed map value; entries in insertion order, keys distinct.
  A Go map does not expose an entry order, so two `mapV` values whose entry
  lists are permutations of one another model the same Go map. -/
  | mapV (entries : List (String × GoVal))
  | sliceV (elems : List GoVal)
  /-- A nil `interface{}` value.  (Non-nil dynamic values are stored
  unwrapped: the constructor itself records the dynamic kind.) -/
  | ifaceNil
  | ptrV (v : GoVal)
  | ptrNil
  | chanV
  | funcV
  | complexV
  deriving Repr

/-- The zero value of a type (`reflect.New(t).Elem()`). -/
def zeroVal : GoType → GoVal
  | .stringT => .str ""
  | .intT b => .intV b 0
  | .boolT => .boolV false
  | .structT fs => .structV (zeroFields fs)
  | .mapT _ => .mapV []
  | .sliceT _ => .sliceV []
  | .ifaceT => .ifaceNil
  | .ptrT _ => .ptrNil
  | .chanT => .chanV
  | .funcT => .funcV
  | .complexT => .complexV
where zeroFields : List (String × String × GoType) → List (String × String × GoVal)
  | [] => []
  | (n, tg, t) :: rest => (n, tg, zeroVal t) :: zeroFields rest

/-! ## Scalar coercion (src/decode.go: setScalar, setInt, parseBool) -/

def parseDigitsAux : List Char → Nat → Option Nat
  | [], acc => some acc
  | c :: cs, acc =>
    if c.isDigit then parseDigitsAux cs (acc * 10 + (c.toNat - 48)) else none

/-- Base-10 digit string to value; `none` when empty or non-digit. -/
def parseDecDigits (cs : List Char) : Option Nat :=
  if cs = [] then none else parseDigitsAux cs 0

/-- Model of `strconv.ParseInt(s, 10, bits)`: optional sign, base-10
digits, range check against the signed range of the given bit width. -/
def parseIntGo (s : String) (bits : Nat) : Res Int :=
  let signed : Bool × List Char :=
    match s.data with
    | '+' :: cs => (false, cs)
    | '-' :: cs => (true, cs)
    | cs => (false, cs)
  match parseDecDigits signed.2 with
  | none => .err "setInt: invalid syntax"
  | some n =>
    if signed.1 then
      if n ≤ 2 ^ (bits - 1) then .ok (-(n : Int))
      else .err "setInt: value out of range"
    else
      if n < 2 ^ (bits - 1) then .ok (n : Int)
      else .err "setInt: value out of range"

/-- Model of `strconv.ParseBool`. -/
def parseBoolGo (s : String) : Res Bool :=
  if s = "1" ∨ s = "t" ∨ s = "T" ∨ s = "TRUE" ∨ s = "true" ∨ s = "True" then
    .ok true
  else if s = "0" ∨ s = "f" ∨ s = "F" ∨ s = "FALSE" ∨ s = "false" ∨ s = "False" then
    .ok false
  else .err "parseBool: invalid syntax"

/-- `setInt` from src/decode.go: the empty string coerces to zero. -/
def setInt (bits : Nat) (s : String) : Res GoVal :=
  if s = "" then .ok (.intV bits 0)
  else (parseIntGo s bits).map (.intV bits)

/-- `parseBool` from src/decode.go: the empty string coerces to false. -/
def setBool (s : String) : Res GoVal :=
  if s = "" then .ok (.boolV false)
  else (parseBoolGo s).map .boolV

/-- `setScalar` from src/decode.go, dispatching on the target's kind.
(The unsigned and float cases of the source are outside the modelled type
universe; every modelled non-scalar kind lands in the default error arm
exactly as in the source.) -/
def setScalar (t : GoType) (val : String) : Res GoVal :=
  match t with
  | .stringT => .ok (.str val)
  | .intT bits => setInt bits val
  | .boolT => setBool val
  | _ => .err "unsupported type"

/-- `asUnmarshaler`: none of the kinds in the modelled universe (built-in
strings, ints, bools, maps, slices, channels, …) implements the custom
`Unmarshaler` interface, so the hook is always absent. -/
def asUnmarshaler (_t : GoType) : Option Unit := none

/-- `assignLeaf` from src/decode.go: use the `Unmarshaler` hook when the
target type has one, otherwise coerce via `setScalar`. -/
def assignLeaf (t : GoType) (val : String) : Res GoVal :=
  match asUnmarshaler t with
  | some _ => .err "unreachable: no modelled type implements Unmarshaler"
  | none => setScalar t val

/-! ## The net/url collaborator (url.ParseQuery, url.Values.Encode)

src/decode.go calls `url.ParseQuery` and src (Marshal) calls
`url.Values.Encode`; these are modelled from the Go standard library's
documented behaviour.  Bytes are identified with code points, which is
exact for ASCII; where escaping is per UTF-8 byte the encoding is done
explicitly. -/

/-- UTF-8 bytes of a character. -/
def utf8Bytes (c : Char) : List Nat :=
  let n := c.toNat
  if n < 0x80 then [n]
  else if n < 0x800 then
    [0xC0 ||| (n >>> 6), 0x80 ||| (n &&& 0x3F)]
  else if n < 0x10000 then
    [0xE0 ||| (n >>> 12), 0x80 ||| ((n >>> 6) &&& 0x3F), 0x80 ||| (n &&& 0x3F)]
  else
    [0xF0 ||| (n >>> 18), 0x80 ||| ((n >>> 12) &&& 0x3F),
     0x80 ||| ((n >>> 6) &&& 0x3F), 0x80 ||| (n &&& 0x3F)]

def upperHex (n : Nat) : Char := "0123456789ABCDEF".data.getD n '0'

/-- Bytes left unescaped by `url.QueryEscape`: alphanumerics and `-_.~`. -/
def isUnreservedByte (b : Nat) : Bool :=
  (48 ≤ b && b ≤ 57) || (65 ≤ b && b ≤ 90) || (97 ≤ b && b ≤ 122) ||
  b = 45 || b = 95 || b = 46 || b = 126

/-- Model of `url.QueryEscape`: space becomes `+`, unreserved bytes pass
through, every other byte becomes `%XX` with uppercase hex. -/
def queryEscape (s : String) : String :=
  String.mk <| s.data.flatMap fun c =>
    (utf8Bytes c).flatMap fun b =>
      if isUnreservedByte b then [Char.ofNat b]
      else if b = 32 then ['+']
      else ['%', upperHex (b / 16), upperHex (b % 16)]

def hexVal (c : Char) : Option Nat :=
  if '0' ≤ c ∧ c ≤ '9' then some (c.toNat - 48)
  else if 'a' ≤ c ∧ c ≤ 'f' then some (c.toNat - 87)
  else if 'A' ≤ c ∧ c ≤ 'F' then some (c.toNat - 55)
  else none

/-- Model of `url.QueryUnescape` over characters: `%XX` decodes to a byte,
`+` decodes to a space, a malformed or truncated escape is an error. -/
def unescapeChars : List Char → Option (List Char)
  | [] => some []
  | '%' :: h1 :: h2 :: rest =>
    match hexVal h1, hexVal h2 with
    | some a, some b => (unescapeChars rest).map (Char.ofNat (16 * a + b) :: ·)
    | _, _ => none
  | '%' :: _ => none
  | '+' :: rest => (unescapeChars rest).map (' ' :: ·)
  | c :: rest => (unescapeChars rest).map (c :: ·)

def queryUnescape (s : String) : Option String :=
  (unescapeChars s.data).map String.mk

/-- `url.Values`: a string-keyed multimap.  Modelled as an association
list of key groups in first-insertion order with pairwise-distinct keys;
a Go map corresponds to such a list up to permutation of the groups. -/
abbrev Values := List (String × List String)

/-- `url.Values.Add`: append the value to the key's group, creating the
group if absent. -/
def valuesAdd (vs : Values) (k v : String) : Values :=
  if vs.any (fun p => p.1 = k) then
    vs.map (fun p => if p.1 = k then (p.1, p.2 ++ [v]) else p)
  else vs ++ [(k, [v])]

/-- `strings.Cut` at the first `=`. -/
def cutEq (s : String) : String × String :=
  match splitFirst '=' s.data with
  | none => (s, "")
  | some (a, b) => (String.mk a, String.mk b)

/-- Model of `url.ParseQuery`: split on `&`, reject chunks containing a
semicolon, skip empty chunks, cut each chunk at the first `=`, unescape key
and value; pairs after a failing chunk are still processed but the call
reports the recorded error. -/
def parseQuery (query : String) : Res Values :=
  let step := fun (acc : Values × Option String) (chunk : String) =>
    if containsChar chunk ';' then
      (acc.1, some "invalid semicolon separator in query")
    else if chunk = "" then acc
    else
      let kv := cutEq chunk
      match queryUnescape kv.1 with
      | none => (acc.1, if acc.2.isNone then some "invalid URL escape" else acc.2)
      | some k =>
        match queryUnescape kv.2 with
        | none => (acc.1, if acc.2.isNone then some "invalid URL escape" else acc.2)
        | some v => (valuesAdd acc.1 k v, acc.2)
  let r := (splitStr '&' query).foldl step ([], none)
  match r.2 with
  | some m => .err m
  | none => .ok r.1

/-- The key order used by `url.Values.Encode`: keys sorted by Go's
byte-wise string comparison (`sort.Strings`), which agrees with Lean's
lexicographic order on strings. -/
def encodeKeyOrder (vs : Values) : List String :=
  (vs.map Prod.fst).insertionSort (fun a b => a ≤ b)

/-- Model of `url.Values.Encode`: emit `k=v` pairs, keys in sorted order,
values of one key in group order, keys and values query-escaped, joined
with `&`. -/
def valuesEncode (vs : Values) : String :=
  let pairs := (encodeKeyOrder vs).flatMap fun k =>
    match vs.lookup k with
    | some vals => vals.map (fun v => queryEscape k ++ "=" ++ queryEscape v)
    | none => []
  joinSep "&" pairs

/-- `renderPath` from the encoder: first segment bare, later named segments
wrapped in brackets, index markers as literal `[]`.  (The source indexes
`path[0]`; it is only ever called with a non-empty path because the root
must be a struct or map.) -/
def renderPath (path : List String) : String :=
  match path with
  | [] => ""
  | p0 :: rest =>
    p0 ++ (rest.map fun p => if p = "" then "[]" else "[" ++ p ++ "]").foldl
      (fun acc piece => acc ++ piece) ""

/-! ## Type inference for dynamic targets (src/decode.go) -/

/-- Write `m[k] = v` on a Go map modelled as an association list: replace
the key's entry in place, or append a new entry. -/
def updateEntry (m : List (String × GoVal)) (k : String) (v : GoVal) :
    List (String × GoVal) :=
  if m.any (fun p => p.1 = k) then
    m.map (fun p => if p.1 = k then (k, v) else p)
  else m ++ [(k, v)]

/-- The `v.Interface().([]interface{})` step of `inferSliceValue`: an
invalid or nil value yields the nil slice; a dynamic slice yields its
elements; any other dynamic value makes the type assertion panic. -/
def dynAsSlice : Option GoVal → Option (List GoVal)
  | none => some []
  | some .ifaceNil => some []
  | some (.sliceV xs) => some xs
  | some _ => none

/-- The `v.Interface().(map[string]interface{})` step of `inferMapValue`. -/
def dynAsMap : Option GoVal → Option (List (String × GoVal))
  | none => some []
  | some .ifaceNil => some []
  | some (.mapV es) => some es
  | some _ => none

mutual

/-- `inferInterfaceValue` from src/decode.go.  `v = none` models an invalid
(absent) `reflect.Value`.  An exhausted path yields the leaf string —
unconditionally, with no numeric or boolean sniffing; an index-marker
segment builds a slice; a named segment builds a map. -/
def inferInterfaceValue (v : Option GoVal) (path : List pathSegment)
    (val : String) : Res GoVal :=
  match hp : path with
  | [] => .ok (.str val)
  | seg :: _ =>
    if seg.index then inferSliceValue v path val
    else inferMapValue v seg path val
  termination_by 2 * path.length + 1
  decreasing_by all_goals (subst hp; omega)

/-- `inferSliceValue` from src/decode.go: take the existing slice (or start
empty), infer a brand-new element from no prior value and the remaining
path, and append it. -/
def inferSliceValue (v : Option GoVal) (path : List pathSegment)
    (val : String) : Res GoVal :=
  match hp : path with
  | [] => .panic "index out of range"
  | _ :: rest =>
    match dynAsSlice v with
    | none => .panic "interface conversion: interface {} is not []interface {}"
    | some slice =>
      (inferInterfaceValue none rest val).map fun elem => .sliceV (slice ++ [elem])
  termination_by 2 * path.length
  decreasing_by subst hp; simp; omega

/-- `inferMapValue` from src/decode.go: take the existing map (or start
empty), recursively infer the updated value for the named key from its
current value, and write it back under that key. -/
def inferMapValue (v : Option GoVal) (seg : pathSegment)
    (path : List pathSegment) (val : String) : Res GoVal :=
  match hp : path with
  | [] => .panic "index out of range"
  | _ :: rest =>
    match dynAsMap v with
    | none => .panic "interface conversion: interface {} is not map[string]interface {}"
    | some m =>
      (inferInterfaceValue (m.lookup seg.key) rest val).map fun elem =>
        .mapV (updateEntry m seg.key elem)
  termination_by 2 * path.length
  decreasing_by subst hp; simp; omega

end

/-! ## The decode engine (src/decode.go: assign and friends) -/

/-- How many pointer indirections end at `interface{}`: used only as a
termination measure for the `assign` family (an interface target re-enters
`assign` at the same path with the dynamic value's concrete type). -/
def ifaceRank : GoType → Nat
  | .ifaceT => 1
  | .ptrT e => ifaceRank e
  | _ => 0

/-- First field index whose (non-ignored) tag name equals the key —
`findStructField` from src/decode.go. -/
def findFieldIdx (ts : List TagRec) (key : String) : Option Nat :=
  match ts with
  | [] => none
  | t :: rest =>
    if !t.ignored && t.name = key then some 0
    else (findFieldIdx rest key).map (· + 1)

/-- The value side of `deref`: a non-nil pointer yields its pointee, a
nil pointer cell yields the pointee type's zero value (the allocation the
source performs with `reflect.New`). -/
def unwrapPtr (e : GoType) (v : GoVal) : GoVal :=
  match v with
  | .ptrV w => w
  | _ => zeroVal e

mutual

/-- `assign` from src/decode.go.  The value carries its static type `t`;
a pointer is dereferenced first (allocating a zero value through a nil
pointer), and the result is stored back through the pointer. -/
def assign (t : GoType) (v : GoVal) (path : List pathSegment) (val : String) :
    Res GoVal :=
  match t with
  | .ptrT e => (assignCore e (unwrapPtr e v) path val).map .ptrV
  | _ => assignCore t v path val
  termination_by 8 * path.length + 2
  decreasing_by all_goals omega

/-- The body of `assign` after the `deref`: leaf assignment on an
exhausted path, otherwise dispatch on the target's kind.  (A second
pointer level or any non-struct/map/slice/interface kind falls through to
the `cannot assign` error, as in the source's `default` arm.) -/
def assignCore (t : GoType) (v : GoVal) (path : List pathSegment) (val : String) :
    Res GoVal :=
  match hp : path with
  | [] => assignLeaf t val
  | seg :: rest =>
    match t, v with
    | .structT tfs, .structV vfs => assignStructField tfs vfs seg.key rest val
    | .mapT elemT, .mapV entries => assignMapValue elemT entries seg rest val
    | .sliceT elemT, .sliceV elems => assignSliceValue elemT elems seg rest val
    | .ifaceT, w => assignInterfaceValue w seg rest val
    | _, _ => .err "cannot assign"
  termination_by 8 * path.length + 1
  decreasing_by all_goals (subst hp; simp; omega)

/-- `assignStructField` from src/decode.go: resolve the key against the
struct's parsed tags; an unknown (or ignored) name is an error.  (All
modelled fields are exported, so the source's `CanSet` test passes.) -/
def assignStructField (tfs : List (String × String × GoType))
    (vfs : List (String × String × GoVal)) (key : String)
    (rest : List pathSegment) (val : String) : Res GoVal :=
  let ts := tagsOfFields (tfs.map fun f => (f.1, f.2.1))
  match findFieldIdx ts key with
  | none => .err ("unknown field " ++ key ++ " in struct")
  | some i =>
    match tfs.get? i, vfs.get? i with
    | some tf, some vf =>
      (assign tf.2.2 vf.2.2 rest val).map fun fv2 =>
        .structV (vfs.set i (vf.1, vf.2.1, fv2))
    | _, _ => .err ("unknown field " ++ key ++ " in struct")
  termination_by 8 * rest.length + 7
  decreasing_by all_goals omega

/-- `assignMapValue` from src/decode.go.  An interface element type defers
to type inference; a slice element type appends one freshly allocated
element with the leaf assigned directly (ignoring the remaining path);
otherwise fetch-or-create a single element, assign into it (dereferencing
a pointer element type first), store back.  (Go fetches existing non-slice
elements as unaddressable copies, which the pure store-back model does not
reproduce; no claim concerns re-assignment into an existing typed map
element.) -/
def assignMapValue (elemT : GoType) (entries : List (String × GoVal))
    (seg : pathSegment) (rest : List pathSegment) (val : String) : Res GoVal :=
  let elem := entries.lookup seg.key
  match elemT with
  | .ifaceT =>
    (inferInterfaceValue elem rest val).map fun newVal =>
      .mapV (updateEntry entries seg.key newVal)
  | .sliceT selemT =>
    let slice := match elem with
      | some (.sliceV xs) => xs
      | _ => []
    (assignLeaf selemT val).map fun newElem =>
      .mapV (updateEntry entries seg.key (.sliceV (slice ++ [newElem])))
  | _ =>
    let elem0 := elem.getD (zeroVal elemT)
    match elemT with
    | .ptrT e =>
      let inner := match elem0 with
        | .ptrV w => w
        | _ => zeroVal e
      (assign e inner rest val).map fun r =>
        .mapV (updateEntry entries seg.key (.ptrV r))
    | _ =>
      (assign elemT elem0 rest val).map fun r =>
        .mapV (updateEntry entries seg.key r)
  termination_by 8 * rest.length + 7
  decreasing_by all_goals omega

/-- `assignSliceValue` from src/decode.go: only an index-marker segment may
address a slice; each occurrence constructs one new element (inferred for
an interface element type, zero-initialized otherwise) and appends it. -/
def assignSliceValue (elemT : GoType) (elems : List GoVal) (seg : pathSegment)
    (rest : List pathSegment) (val : String) : Res GoVal :=
  if !seg.index then .err "form: expected slice index"
  else
    match elemT with
    | .ifaceT =>
      (inferInterfaceValue none rest val).map fun newElem =>
        .sliceV (elems ++ [newElem])
    | _ =>
      if rest.isEmpty then
        (assignLeaf elemT val).map fun e => .sliceV (elems ++ [e])
      else
        (assign elemT (zeroVal elemT) rest val).map fun e =>
          .sliceV (elems ++ [e])
  termination_by 8 * rest.length + 7
  decreasing_by all_goals omega

/-- `assignInterfaceValue` from src/decode.go: a nil interface slot is
filled by type inference; a non-nil one re-enters the dispatch on the
dynamic value.  (Its only call site — the interface arm of the dispatch —
has a non-empty path `seg :: rest`, which is passed split here.  Dynamic
values in this package are strings, dynamic maps or dynamic slices;
re-entry on a scalar with path segments remaining lands in the source's
`cannot assign` default arm.) -/
def assignInterfaceValue (v : GoVal) (seg : pathSegment)
    (rest : List pathSegment) (val : String) : Res GoVal :=
  match v with
  | .ifaceNil => inferInterfaceValue none (seg :: rest) val
  | .mapV es => assignMapValue .ifaceT es seg rest val
  | .sliceV xs => assignSliceValue .ifaceT xs seg rest val
  | _ => .err "cannot assign"
  termination_by 8 * rest.length + 8
  decreasing_by all_goals omega

end

/-! ## Driving the decode (src/decode.go: unmarshalForm, Unmarshal) -/

/-- The inner loop of `unmarshalForm`: assign each value of one key group,
in group order, threading the target value; an assignment error is wrapped
with the `form: ` prefix and aborts. -/
def assignAll (t : GoType) (path : List pathSegment) (vals : List String)
    (v : GoVal) : Res GoVal :=
  match vals with
  | [] => .ok v
  | x :: rest =>
    match assign t v path x with
    | .ok v2 => assignAll t path rest v2
    | .err m => .err ("form: " ++ m)
    | .panic m => .panic m

/-- `unmarshalForm` from src/decode.go: for each (key, values) group of the
flat multimap, parse the key into a path and assign each value in order.
(Go iterates the `url.Values` map in unspecified order; the model iterates
the association list in its order.) -/
def unmarshalForm (values : Values) (t : GoType) (v : GoVal) : Res GoVal :=
  match values with
  | [] => .ok v
  | (rawKey, vals) :: restVs =>
    match parseKey rawKey with
    | .err m => .err m
    | .panic m => .panic m
    | .ok path =>
      match assignAll t path vals v with
      | .ok v2 => unmarshalForm restVs t v2
      | .err m => .err m
      | .panic m => .panic m

/-- `Unmarshal` from src/decode.go for a non-nil pointer target whose
pointee has type `t` and current value `v`: reject empty input, require a
struct or (string-keyed) map root, trim surrounding space, parse the query
into the flat multimap, and run `unmarshalForm`.  (The nil/non-pointer
argument checks of the source concern the call, not the data, and are
outside the model; `mapT` is string-keyed by construction, so the map key
check of the source is satisfied by every modelled map type.) -/
def Unmarshal (data : String) (t : GoType) (v : GoVal) : Res GoVal :=
  if data = "" then .err "form: empty input"
  else
    match t with
    | .structT _ | .mapT _ =>
      match parseQuery (trimSpace data) with
      | .err m => .err ("form: invalid form data: " ++ m)
      | .panic m => .panic m
      | .ok values => unmarshalForm values t v
    | _ => .err "form: top-level value must be struct or map"

/-! ## The encode engine (Marshal and friends) -/

/-- `isEmptyValue` from the encoder: length-zero collections and strings,
zero numbers, `false`, and nil interfaces/pointers are empty; everything
else (structs, channels, …) is not. -/
def isEmptyValue : GoVal → Bool
  | .sliceV xs => xs.isEmpty
  | .mapV es => es.isEmpty
  | .str s => s.data.isEmpty
  | .boolV b => !b
  | .intV _ n => n == 0
  | .ifaceNil => true
  | .ptrNil => true
  | _ => false

/-- `getScalar` from the encoder: render a scalar; any other kind —
channel-like, function-like, complex-number-like, or a composite that
reached the default arm — is a runtime panic, not a returned error. -/
def getScalar : GoVal → Res String
  | .str s => .ok s
  | .intV _ n => .ok (toString n)
  | .boolV b => .ok (if b then "true" else "false")
  | _ => .panic "form: unsupported type"

/-- `asMarshaler`: none of the kinds in the modelled universe implements
the custom `Marshaler` interface, so the hook is always absent. -/
def asMarshalerVal (_v : GoVal) : Option String := none

mutual

/-- `marshalValue` from the encoder: skip nil pointers, dereference
non-nil ones, then dispatch on kind.  (The custom-`Marshaler` check comes
first in the source; no modelled type implements it.  An interface value
in the model is stored unwrapped, so the source's non-nil-interface
recursion into `v.Elem()` is the identity here; a nil interface emits
nothing.) -/
def marshalValue (out : Values) (path : List String) (v : GoVal) : Res Values :=
  match asMarshalerVal v with
  | some s => .ok (valuesAdd out (renderPath path) s)
  | none =>
    match v with
    | .ptrNil => .ok out
    | .ptrV w => marshalValue out path w
    | .structV fields => marshalStruct out path fields
    | .mapV entries => marshalMap out path entries
    | .sliceV elems => marshalSlice out path elems
    | .ifaceNil => .ok out
    | w => marshalScalar out path w

/-- `marshalStruct` from the encoder: fields in declaration order; skip
ignored fields, `omitempty` fields holding an empty value, and fields with
an empty resolved name; emit the rest under `path + name`. -/
def marshalStruct (out : Values) (path : List String)
    (fields : List (String × String × GoVal)) : Res Values :=
  match fields with
  | [] => .ok out
  | (fname, ftag, fv) :: rest =>
    let p := parseTag ftag
    let tg := if !p.ignored && p.name = "" then { p with name := fname } else p
    if tg.ignored then marshalStruct out path rest
    else if tg.omitEmpty && isEmptyValue fv then marshalStruct out path rest
    else if tg.name = "" then marshalStruct out path rest
    else
      match marshalValue out (path ++ [tg.name]) fv with
      | .ok out2 => marshalStruct out2 path rest
      | .err m => .err m
      | .panic m => .panic m

/-- `marshalMap` from the encoder: iterate entries (Go iterates the map in
unspecified order; the model iterates the entry list in its order), skip
nil dynamic values, emit each under `path + key`. -/
def marshalMap (out : Values) (path : List String)
    (entries : List (String × GoVal)) : Res Values :=
  match entries with
  | [] => .ok out
  | (k, mv) :: rest =>
    match mv with
    | .ifaceNil => marshalMap out path rest
    | _ =>
      match marshalValue out (path ++ [k]) mv with
      | .ok out2 => marshalMap out2 path rest
      | .err m => .err m
      | .panic m => .panic m

/-- `marshalSlice` from the encoder: elements in order, skip nil dynamic
elements, emit each under `path + indexMarker` (the empty segment renders
as `[]`; a positional index is never emitted). -/
def marshalSlice (out : Values) (path : List String) (elems : List GoVal) :
    Res Values :=
  match elems with
  | [] => .ok out
  | e :: rest =>
    match e with
    | .ifaceNil => marshalSlice out path rest
    | _ =>
      match marshalValue out (path ++ [""]) e with
      | .ok out2 => marshalSlice out2 path rest
      | .err m => .err m
      | .panic m => .panic m

/-- `marshalScalar` from the encoder: render the scalar (panicking on
unsupported kinds inside `getScalar`) then add the pair. -/
def marshalScalar (out : Values) (path : List String) (v : GoVal) : Res Values :=
  (getScalar v).map fun s => valuesAdd out (renderPath path) s

end

/-- `Marshal` from the encoder: nil and nil-pointer inputs give empty
output; the (dereferenced) root must be a struct or string-keyed map; then
a single traversal accumulates the multimap, which `url.Values.Encode`
serializes key-sorted and escaped. -/
def Marshal (v : GoVal) : Res String :=
  match v with
  | .ifaceNil => .ok ""
  | .ptrNil => .ok ""
  | .ptrV w => MarshalRoot w
  | w => MarshalRoot w
where MarshalRoot (w : GoVal) : Res String :=
  match w with
  | .structV _ => (marshalValue [] [] w).map valuesEncode
  | .mapV _ => (marshalValue [] [] w).map valuesEncode
  | _ => .err "form: top-level value must be struct or map"

/-! ## The schema cache protocol (src/tags.go)

The `tags` function is, per thread: an atomic `sync.Map` `Load`; on a miss
a local computation of the metadata; then an atomic `Store`.  `sync.Map`
operations are atomic and provide read-after-write visibility, so the
concurrent behaviour for one struct type is the set of interleavings of
these three steps — modelled as a two-thread transition system with an
explicit schedule.  The computation counter records how many times the
metadata was computed. -/

/-- Program counter of one thread running `tags` for a fixed struct type. -/
inductive CachePC where
  | beforeLoad
  | toCompute
  | toStore (r : List TagRec)
  | done (r : List TagRec)
  deriving Repr

/-- Shared cache cell plus both threads' states and the computation
counter. -/
structure CacheState where
  cache : Option (List TagRec)
  pc1 : CachePC
  pc2 : CachePC
  computes : Nat
  deriving Repr

def cacheInit : CacheState := ⟨none, .beforeLoad, .beforeLoad, 0⟩

/-- Advance one thread by one atomic step of `tags` (fields are the struct
type's (field name, tag) pairs): `Load` hit returns the cached entry,
`Load` miss proceeds to compute, computing produces `tagsOfFields fields`
and bumps the counter, `Store` publishes the entry. -/
def cacheStepPC (fields : List (String × String)) (cache : Option (List TagRec))
    (pc : CachePC) : Option (List TagRec) × CachePC × Nat :=
  match pc with
  | .beforeLoad =>
    match cache with
    | some r => (cache, .done r, 0)
    | none => (cache, .toCompute, 0)
  | .toCompute => (cache, .toStore (tagsOfFields fields), 1)
  | .toStore r => (some r, .done r, 0)
  | .done r => (cache, .done r, 0)

/-- One scheduler step: `true` advances thread 1, `false` thread 2. -/
def cacheStep (fields : List (String × String)) (who : Bool) (s : CacheState) :
    CacheState :=
  if who then
    let r := cacheStepPC fields s.cache s.pc1
    ⟨r.1, r.2.1, s.pc2, s.computes + r.2.2⟩
  else
    let r := cacheStepPC fields s.cache s.pc2
    ⟨r.1, s.pc1, r.2.1, s.computes + r.2.2⟩

/-- Run a schedule from the initial state. -/
def cacheRun (fields : List (String × String)) (sched : List Bool) : CacheState :=
  sched.foldl (fun s who => cacheStep fields who s) cacheInit

/-! ## Fixtures and claim theorems -/

unseal parseKeyAux inferInterfaceValue inferSliceValue inferMapValue assign
  assignCore assignStructField assignMapValue assignSliceValue
  assignInterfaceValue

/-- The `Person` record of the repository's test fixtures:
`Name string form:"name"`, `Age int form:"age,omitempty"`,
`Pronouns []string form:"pronouns"`. -/
def PersonT : GoType :=
  .structT [("Name", "name", .stringT), ("Age", "age,omitempty", .intT 64),
            ("Pronouns", "pronouns", .sliceT .stringT)]

/-- The round trip of claim C1: decode into a fully dynamic mapping
(`map[string]interface{}`), then re-encode. -/
def dynRoundTrip (input : String) : Res String :=
  (Unmarshal input (.mapT .ifaceT) (.mapV [])).bind Marshal

/-- Render a parsed path back to a raw key string. -/
def segsToPath (ps : List pathSegment) : List String :=
  ps.map fun s => if s.index then "" else s.key

/-- Modelled from the spec: "canonicalization is the key-sorted,
path-rendered, escaped serialization of a flat multimap" — parse each raw
key of the input multimap into a path, re-render it, and serialize the
resulting multimap with the flat-multimap serializer (which sorts by key
and escapes). -/
def canonicalizeSpec (input : String) : Res String :=
  (parseQuery (trimSpace input)).bind fun vs =>
    (canonGroups [] vs).map valuesEncode
where canonGroups : Values → Values → Res Values
  | acc, [] => .ok acc
  | acc, (k, vals) :: rest =>
    match parseKey k with
    | .ok ps =>
      canonGroups
        (vals.foldl (fun a v => valuesAdd a (renderPath (segsToPath ps)) v) acc)
        rest
    | .err m => .err m
    | .panic m => .panic m

/-- The dynamic value `inferInterfaceValue` builds from no prior value:
singleton maps along named segments, singleton slices at index markers,
the leaf string at the end. -/
def freshDyn : List pathSegment → String → GoVal
  | [], v => .str v
  | seg :: rest, v =>
    if seg.index then .sliceV [freshDyn rest v]
    else .mapV [(seg.key, freshDyn rest v)]

/-- Singleton dynamic maps wrapped along a named path prefix. -/
def nestNamed : List pathSegment → GoVal → GoVal
  | [], x => x
  | seg :: rest, x => .mapV [(seg.key, nestNamed rest x)]

theorem infer_none_eq_freshDyn (suf : List pathSegment) (v : String) :
    inferInterfaceValue none suf v = .ok (freshDyn suf v) := by
  induction suf with
  | nil => rfl
  | cons s rest ih =>
    by_cases hs : s.index = true
    · rw [inferInterfaceValue.eq_def]
      simp only [hs, if_true]
      rw [inferSliceValue.eq_def]
      simp [dynAsSlice, ih, freshDyn, hs]
    · rw [inferInterfaceValue.eq_def]
      simp only [hs, if_false]
      rw [inferMapValue.eq_def]
      simp [dynAsMap, ih, freshDyn, hs, updateEntry]

theorem freshDyn_ne_ifaceNil (suf : List pathSegment) (v : String) :
    freshDyn suf v ≠ .ifaceNil := by
  cases suf with
  | nil => simp [freshDyn]
  | cons s rest => by_cases hs : s.index = true <;> simp [freshDyn, hs]

theorem nestNamed_ne_ifaceNil (pre : List pathSegment) (x : GoVal)
    (hx : x ≠ .ifaceNil) : nestNamed pre x ≠ .ifaceNil := by
  cases pre with
  | nil => simpa [nestNamed] using hx
  | cons s ps => simp [nestNamed]

/-- Splitting the fresh chain at the first index marker. -/
theorem freshDyn_append_marker (mk : pathSegment) (suf : List pathSegment)
    (v : String) (hmk : mk.index = true) :
    ∀ pre : List pathSegment, (∀ s ∈ pre, s.index = false) →
      freshDyn (pre ++ mk :: suf) v =
        nestNamed pre (.sliceV [freshDyn suf v]) := by
  intro pre
  induction pre with
  | nil => intro _; simp [freshDyn, nestNamed, hmk]
  | cons s ps ih =>
    intro hpre
    have hs : s.index = false := hpre s (List.mem_cons_self _ _)
    have hps : ∀ t ∈ ps, t.index = false := fun t ht =>
      hpre t (List.mem_cons_of_mem _ ht)
    simp [freshDyn, nestNamed, hs, ih hps]

/-- The appending behaviour of inference along an existing chain: with the
existing value a nest of singleton maps around a slice, an assignment whose
path passes the same named prefix and reaches an index marker appends one
fresh chain to that slice. -/
theorem infer_append_marker (mk : pathSegment) (suf : List pathSegment)
    (hmk : mk.index = true) :
    ∀ (pre : List pathSegment) (xs : List GoVal) (v : String),
      (∀ s ∈ pre, s.index = false) →
      inferInterfaceValue (some (nestNamed pre (.sliceV xs)))
          (pre ++ mk :: suf) v =
        .ok (nestNamed pre (.sliceV (xs ++ [freshDyn suf v]))) := by
  intro pre
  induction pre with
  | nil =>
    intro xs v _
    simp only [List.nil_append, nestNamed]
    rw [inferInterfaceValue.eq_def]
    simp only [hmk, if_true]
    rw [inferSliceValue.eq_def]
    simp [dynAsSlice, infer_none_eq_freshDyn]
  | cons s ps ih =>
    intro xs v hpre
    have hs : s.index = false := hpre s (List.mem_cons_self _ _)
    have hps : ∀ t ∈ ps, t.index = false := fun t ht =>
      hpre t (List.mem_cons_of_mem _ ht)
    simp only [List.cons_append, nestNamed]
    rw [inferInterfaceValue.eq_def]
    simp only [hs, if_false]
    rw [inferMapValue.eq_def]
    simp [dynAsMap, List.lookup, ih xs v hps, updateEntry, nestNamed]

/-- One assignment into the dynamic top-level map routes to inference at
the key's current value and writes the result back. -/
theorem assign_dynmap (entries : List (String × GoVal)) (seg0 : pathSegment)
    (rest : List pathSegment) (v : String) :
    assign (.mapT .ifaceT) (.mapV entries) (seg0 :: rest) v =
      (inferInterfaceValue (entries.lookup seg0.key) rest v).map fun nv =>
        .mapV (updateEntry entries seg0.key nv) := by
  simp only [assign.eq_def, assignCore.eq_def, assignMapValue.eq_def]

theorem assignAll_dynmap_start (seg0 : pathSegment) (rest : List pathSegment)
    (v : String) (vs : List String) :
    assignAll (.mapT .ifaceT) (seg0 :: rest) (v :: vs) (.mapV []) =
      assignAll (.mapT .ifaceT) (seg0 :: rest) vs
        (.mapV [(seg0.key, freshDyn rest v)]) := by
  simp only [assignAll]
  rw [assign_dynmap]
  simp [List.lookup, infer_none_eq_freshDyn, updateEntry]

theorem assignAll_dynmap_append (seg0 : pathSegment) (pre : List pathSegment)
    (mk : pathSegment) (suf : List pathSegment)
    (hpre : ∀ s ∈ pre, s.index = false) (hmk : mk.index = true) :
    ∀ (vs : List String) (xs : List GoVal),
      assignAll (.mapT .ifaceT) (seg0 :: (pre ++ mk :: suf)) vs
          (.mapV [(seg0.key, nestNamed pre (.sliceV xs))]) =
        .ok (.mapV [(seg0.key,
          nestNamed pre (.sliceV (xs ++ vs.map (freshDyn suf))))]) := by
  intro vs
  induction vs with
  | nil => intro xs; simp [assignAll]
  | cons v vs ih =>
    intro xs
    simp only [assignAll]
    rw [assign_dynmap]
    simp only [List.lookup, beq_self_eq_true]
    rw [infer_append_marker mk suf hmk pre xs v hpre]
    have hupd : updateEntry [(seg0.key, nestNamed pre (.sliceV xs))] seg0.key
        (nestNamed pre (.sliceV (xs ++ [freshDyn suf v]))) =
        [(seg0.key, nestNamed pre (.sliceV (xs ++ [freshDyn suf v])))] := by
      simp [updateEntry]
    simp only [Res.map_ok, hupd]
    rw [ih (xs ++ [freshDyn suf v])]
    simp

theorem unmarshalForm_single_ok (k : String) (vals : List String)
    (ps : List pathSegment) (t : GoType) (v V : GoVal)
    (hk : parseKey k = .ok ps) (ha : assignAll t ps vals v = .ok V) :
    unmarshalForm [(k, vals)] t v = .ok V := by
  simp [unmarshalForm, hk, ha]

/-- A singleton map entry marshals as its value one path level down. -/
theorem marshalMap_singleton_eq (out : Values) (path : List String)
    (k : String) (e : GoVal) (hne : e ≠ .ifaceNil) :
    marshalMap out path [(k, e)] = marshalValue out (path ++ [k]) e := by
  cases hmv : marshalValue out (path ++ [k]) e <;> cases e <;>
    simp_all [marshalMap]

/-- A slice head marshals under the index marker, then the tail. -/
theorem marshalSlice_cons_eq (out : Values) (path : List String) (e : GoVal)
    (elems : List GoVal) (hne : e ≠ .ifaceNil) :
    marshalSlice out path (e :: elems) =
      (marshalValue out (path ++ [""]) e).bind fun o =>
        marshalSlice o path elems := by
  cases hmv : marshalValue out (path ++ [""]) e <;> cases e <;>
    simp_all [marshalSlice, Res.bind]

/-- Marshalling a fresh chain emits exactly one pair, at the rendering of
the chain's path appended to the current path. -/
theorem marshal_freshDyn (suf : List pathSegment) (v : String) :
    ∀ (out : Values) (path : List String),
      marshalValue out path (freshDyn suf v) =
        .ok (valuesAdd out (renderPath (path ++ segsToPath suf)) v) := by
  induction suf with
  | nil =>
    intro out path
    simp [freshDyn, marshalValue, asMarshalerVal, marshalScalar, getScalar,
      segsToPath]
  | cons s rest ih =>
    intro out path
    have hne : freshDyn rest v ≠ .ifaceNil := freshDyn_ne_ifaceNil rest v
    by_cases hs : s.index = true
    · have hf : freshDyn (s :: rest) v = .sliceV [freshDyn rest v] := by
        simp [freshDyn, hs]
      have h1 : marshalValue out path (.sliceV [freshDyn rest v]) =
          marshalSlice out path [freshDyn rest v] := by
        simp [marshalValue, asMarshalerVal]
      rw [hf, h1, marshalSlice_cons_eq out path _ [] hne, ih out (path ++ [""])]
      simp [Res.bind, marshalSlice, segsToPath, hs, List.append_assoc]
    · have hf : freshDyn (s :: rest) v = .mapV [(s.key, freshDyn rest v)] := by
        simp [freshDyn, hs]
      have h1 : marshalValue out path (.mapV [(s.key, freshDyn rest v)]) =
          marshalMap out path [(s.key, freshDyn rest v)] := by
        simp [marshalValue, asMarshalerVal]
      rw [hf, h1, marshalMap_singleton_eq out path s.key _ hne,
        ih out (path ++ [s.key])]
      simp [segsToPath, hs, List.append_assoc]

/-- Marshalling a list of fresh chains over the same path emits their
leaves in order, all under the same rendered key. -/
theorem marshalSlice_chains (suf : List pathSegment) :
    ∀ (vs : List String) (out : Values) (path : List String),
      marshalSlice out path (vs.map (freshDyn suf)) =
        .ok (vs.foldl (fun a v =>
          valuesAdd a (renderPath ((path ++ [""]) ++ segsToPath suf)) v) out) := by
  intro vs
  induction vs with
  | nil => intro out path; simp [marshalSlice]
  | cons v vs ih =>
    intro out path
    have hne : freshDyn suf v ≠ .ifaceNil := freshDyn_ne_ifaceNil suf v
    simp only [List.map_cons]
    rw [marshalSlice_cons_eq out path _ _ hne, marshal_freshDyn suf v out (path ++ [""])]
    simp only [Res.bind]
    rw [ih]
    simp

/-- Marshalling through a nest of singleton maps accumulates the named
keys onto the path. -/
theorem marshal_nestNamed (x : GoVal) (hx : x ≠ .ifaceNil) :
    ∀ (pre : List pathSegment) (out : Values) (path : List String),
      (∀ s ∈ pre, s.index = false) →
      marshalValue out path (nestNamed pre x) =
        marshalValue out (path ++ segsToPath pre) x := by
  intro pre
  induction pre with
  | nil => intro out path _; simp [nestNamed, segsToPath]
  | cons s ps ih =>
    intro out path hpre
    have hs : s.index = false := hpre s (List.mem_cons_self _ _)
    have hps : ∀ t ∈ ps, t.index = false := fun t ht =>
      hpre t (List.mem_cons_of_mem _ ht)
    have hinner : nestNamed ps x ≠ .ifaceNil := nestNamed_ne_ifaceNil ps x hx
    have h1 : marshalValue out path (nestNamed (s :: ps) x) =
        marshalMap out path [(s.key, nestNamed ps x)] := by
      simp [nestNamed, marshalValue, asMarshalerVal]
    rw [h1, marshalMap_singleton_eq out path s.key _ hinner,
      ih out (path ++ [s.key]) hps]
    simp [segsToPath, hs, List.append_assoc]

theorem valuesAdd_same_key (k : String) (acc : List String) (v : String) :
    valuesAdd [(k, acc)] k v = [(k, acc ++ [v])] := by
  simp [valuesAdd]

theorem addAll_group (k : String) :
    ∀ (vs : List String) (acc : List String),
      vs.foldl (fun a v => valuesAdd a k v) [(k, acc)] = [(k, acc ++ vs)] := by
  intro vs
  induction vs with
  | nil => intro acc; simp
  | cons v vs ih =>
    intro acc
    simp only [List.foldl_cons, valuesAdd_same_key]
    rw [ih (acc ++ [v])]
    simp

theorem addAll_group_start (k : String) (v : String) (vs : List String) :
    (v :: vs).foldl (fun a w => valuesAdd a k w) [] = [(k, v :: vs)] := by
  have h0 : valuesAdd [] k v = [(k, [v])] := by simp [valuesAdd]
  simp only [List.foldl_cons, h0]
  rw [addAll_group]
  simp

theorem canonGroups_single (k : String) (vals : List String)
    (ps : List pathSegment) (hk : parseKey k = .ok ps) :
    canonicalizeSpec.canonGroups [] [(k, vals)] =
      .ok (vals.foldl (fun a v =>
        valuesAdd a (renderPath (segsToPath ps)) v) []) := by
  simp [canonicalizeSpec.canonGroups, hk]

theorem marshal_dynmap_singleton (key0 : String) (inner : GoVal)
    (hne : inner ≠ .ifaceNil) :
    Marshal (.mapV [(key0, inner)]) =
      (marshalValue [] [key0] inner).map valuesEncode := by
  have h1 : Marshal (.mapV [(key0, inner)]) =
      (marshalValue [] [] (.mapV [(key0, inner)])).map valuesEncode := rfl
  have h2 : marshalValue [] [] (.mapV [(key0, inner)]) =
      marshalMap [] [] [(key0, inner)] := by
    simp [marshalValue, asMarshalerVal]
  rw [h1, h2, marshalMap_singleton_eq [] [] key0 inner hne]
  simp

theorem exists_first_marker (rest : List pathSegment)
    (h : rest.any (·.index) = true) :
    ∃ pre mk suf, rest = pre ++ mk :: suf ∧ mk.index = true ∧
      ∀ s ∈ pre, s.index = false := by
  induction rest with
  | nil => simp at h
  | cons s rs ih =>
    by_cases hs : s.index = true
    · exact ⟨[], s, rs, by simp, hs, by simp⟩
    · have hrs : rs.any (·.index) = true := by
        simp only [List.any_cons, Bool.or_eq_true] at h
        rcases h with h | h
        · exact absurd h hs
        · exact h
      obtain ⟨pre, mk, suf, hr, hmk, hpre⟩ := ih hrs
      refine ⟨s :: pre, mk, suf, by simp [hr], hmk, ?_⟩
      intro t ht
      rcases List.mem_cons.mp ht with h1 | h1
      · subst h1
        simpa using hs
      · exact hpre t h1

/-- C1, counterexample: the claim fails twice over.  Re-encoding the
decoded dynamic value does NOT yield the input string byte-for-byte: the
serializer percent-escapes the brackets of the rendered path, so the
output for the claim's own example is
`data%5Bitems%5D%5B%5D=a&data%5Bitems%5D%5B%5D=b`, not
`data[items][]=a&data[items][]=b`.  And even up to escaping the universal
form is false: a repeated path not ending in an index marker loses every
value but the last, so `a=1&a=2` re-encodes as `a=2` while its
canonicalization keeps both pairs. -/
theorem c1_roundtrip_counterexample :
    dynRoundTrip "data[items][]=a&data[items][]=b" =
      .ok "data%5Bitems%5D%5B%5D=a&data%5Bitems%5D%5B%5D=b"
    ∧ dynRoundTrip "data[items][]=a&data[items][]=b" ≠
      .ok "data[items][]=a&data[items][]=b"
    ∧ dynRoundTrip "a=1&a=2" = .ok "a=2"
    ∧ canonicalizeSpec "a=1&a=2" = .ok "a=1&a=2"
    ∧ dynRoundTrip "a=1&a=2" ≠ canonicalizeSpec "a=1&a=2" :=
  ⟨rfl, by decide, rfl, rfl, by decide⟩

/-- C1, amended: for every single-key group of the flat multimap decoded
into a fully dynamic mapping — any raw key parsing to a path that begins
with a named segment, any nesting depth, any nonempty list of values with
either exactly one value or an index marker in the path (so that no pair
is lost to scalar overwriting) — re-encoding yields exactly the
canonicalization of that group: every leaf, in input order, under the
key-sorted, path-rendered, percent-escaped serialization.  In particular
the spec's example re-encodes to
`data%5Bitems%5D%5B%5D=a&data%5Bitems%5D%5B%5D=b`, the escaped
canonicalization of the input, which unescapes back to it. -/
theorem c1_roundtrip_escaped_canonical :
    (∀ (k : String) (vals : List String) (seg0 : pathSegment)
       (rest : List pathSegment),
      parseKey k = .ok (seg0 :: rest) →
      seg0.index = false →
      vals ≠ [] →
      (vals.length = 1 ∨ rest.any (·.index) = true) →
      (unmarshalForm [(k, vals)] (.mapT .ifaceT) (.mapV [])).bind Marshal =
        (canonicalizeSpec.canonGroups [] [(k, vals)]).map valuesEncode)
    ∧ dynRoundTrip "data[items][]=a&data[items][]=b" =
      canonicalizeSpec "data[items][]=a&data[items][]=b"
    ∧ dynRoundTrip "data[items][]=a&data[items][]=b" =
      .ok "data%5Bitems%5D%5B%5D=a&data%5Bitems%5D%5B%5D=b"
    ∧ queryUnescape "data%5Bitems%5D%5B%5D=a&data%5Bitems%5D%5B%5D=b" =
      some "data[items][]=a&data[items][]=b" := by
  refine ⟨?_, rfl, rfl, rfl⟩
  intro k vals seg0 rest hk hseg0 hvne hcase
  obtain ⟨v, vs, rfl⟩ : ∃ v vs, vals = v :: vs := by
    cases vals with
    | nil => exact absurd rfl hvne
    | cons a l => exact ⟨a, l, rfl⟩
  rcases hcase with hlen | hmark
  · have hvs : vs = [] := by
      simp only [List.length_cons] at hlen
      exact List.eq_nil_of_length_eq_zero (by omega)
    subst hvs
    have hassign : assignAll (.mapT .ifaceT) (seg0 :: rest) [v] (.mapV []) =
        .ok (.mapV [(seg0.key, freshDyn rest v)]) := by
      rw [assignAll_dynmap_start]
      simp [assignAll]
    rw [unmarshalForm_single_ok k [v] (seg0 :: rest) _ _ _ hk hassign]
    simp only [Res.bind]
    have hfne : freshDyn rest v ≠ .ifaceNil := freshDyn_ne_ifaceNil rest v
    rw [marshal_dynmap_singleton seg0.key _ hfne,
      marshal_freshDyn rest v [] [seg0.key],
      canonGroups_single k [v] (seg0 :: rest) hk]
    simp [segsToPath, hseg0]
  · obtain ⟨pre, mk, suf, hrest, hmk, hpre⟩ := exists_first_marker rest hmark
    subst hrest
    have hassign : assignAll (.mapT .ifaceT) (seg0 :: (pre ++ mk :: suf))
        (v :: vs) (.mapV []) =
        .ok (.mapV [(seg0.key,
          nestNamed pre (.sliceV ((v :: vs).map (freshDyn suf))))]) := by
      rw [assignAll_dynmap_start, freshDyn_append_marker mk suf v hmk pre hpre,
        assignAll_dynmap_append seg0 pre mk suf hpre hmk vs [freshDyn suf v]]
      simp
    rw [unmarshalForm_single_ok k (v :: vs) _ _ _ _ hk hassign]
    simp only [Res.bind]
    have hinner : nestNamed pre (.sliceV ((v :: vs).map (freshDyn suf))) ≠
        .ifaceNil := nestNamed_ne_ifaceNil _ _ (by simp)
    rw [marshal_dynmap_singleton seg0.key _ hinner,
      marshal_nestNamed (.sliceV ((v :: vs).map (freshDyn suf))) (by simp)
        pre [] [seg0.key] hpre]
    have hms : marshalValue [] ([seg0.key] ++ segsToPath pre)
        (.sliceV ((v :: vs).map (freshDyn suf))) =
        marshalSlice [] ([seg0.key] ++ segsToPath pre)
          ((v :: vs).map (freshDyn suf)) := by
      simp [marshalValue, asMarshalerVal]
    rw [hms, marshalSlice_chains suf (v :: vs) [] ([seg0.key] ++ segsToPath pre),
      addAll_group_start, canonGroups_single k (v :: vs) _ hk,
      addAll_group_start]
    simp [segsToPath, hseg0, hmk, List.map_append, List.append_assoc]

/-- C1, witness: the general round-trip theorem applied at the spec's own
example group, `data[items][]` with values `a`, `b`. -/
theorem c1_roundtrip_witness :
    (unmarshalForm [("data[items][]", ["a", "b"])] (.mapT .ifaceT)
        (.mapV [])).bind Marshal =
      (canonicalizeSpec.canonGroups [] [("data[items][]", ["a", "b"])]).map
        valuesEncode :=
  c1_roundtrip_escaped_canonical.1 "data[items][]" ["a", "b"]
    ⟨"data", false⟩ [⟨"items", false⟩, ⟨"", true⟩] rfl rfl (by decide)
    (Or.inr rfl)

/-- C2: a path-exhausted assignment into a dynamic slot yields the leaf
string itself, unconditionally — for every prior value and every leaf —
and in particular decoding `val=007` into a dynamic mapping yields the
string `"007"`, never a number. -/
theorem c2_dynamic_leaf_unconditional_string :
    (∀ (v : Option GoVal) (val : String),
      inferInterfaceValue v [] val = .ok (.str val))
    ∧ Unmarshal "val=007" (.mapT .ifaceT) (.mapV []) =
      .ok (.mapV [("val", .str "007")]) :=
  ⟨fun _ _ => rfl, rfl⟩

/-- C2, witness: the unconditional-leaf rule evaluated at a concrete prior
value and the apparently numeric leaf `007`. -/
theorem c2_dynamic_leaf_witness :
    inferInterfaceValue (some (.mapV [])) [] "007" = .ok (.str "007") :=
  c2_dynamic_leaf_unconditional_string.1 (some (.mapV [])) "007"

/-- C3: the decode engine assigns each value of a key group in multimap
order, and the later assignment wins for scalar slots: for all values
`v1, v2`, decoding the group `name ↦ [v1, v2]` into the `Person` record
leaves `v2` in the string field; concretely, `name=john&name=jane` yields
`jane`, and a mixed form also appends sequence values in order. -/
theorem c3_last_write_wins :
    (∀ v1 v2 : String,
      unmarshalForm [("name", [v1, v2])] PersonT (zeroVal PersonT) =
        .ok (.structV [("Name", "name", .str v2),
                       ("Age", "age,omitempty", .intV 64 0),
                       ("Pronouns", "pronouns", .sliceV [])]))
    ∧ Unmarshal "name=john&name=jane" PersonT (zeroVal PersonT) =
      .ok (.structV [("Name", "name", .str "jane"),
                     ("Age", "age,omitempty", .intV 64 0),
                     ("Pronouns", "pronouns", .sliceV [])])
    ∧ Unmarshal "name=john&age=20&pronouns[]=he&pronouns[]=him" PersonT
        (zeroVal PersonT) =
      .ok (.structV [("Name", "name", .str "john"),
                     ("Age", "age,omitempty", .intV 64 20),
                     ("Pronouns", "pronouns",
                      .sliceV [.str "he", .str "him"])]) :=
  ⟨fun _ _ => rfl, rfl, rfl⟩

/-- C3, witness: the last-write-wins rule at the concrete pair
`john`/`jane`. -/
theorem c3_last_write_wins_witness :
    unmarshalForm [("name", ["john", "jane"])] PersonT (zeroVal PersonT) =
      .ok (.structV [("Name", "name", .str "jane"),
                     ("Age", "age,omitempty", .intV 64 0),
                     ("Pronouns", "pronouns", .sliceV [])]) :=
  c3_last_write_wins.1 "john" "jane"

/-- C4: in dynamic inference every index-marker segment appends one
brand-new element — built from no prior value and the remaining path — to
the (possibly empty) existing sequence, never merging by position; and
decoding `items[]=a&items[]=b&items[]=c` into a dynamic mapping yields
the three-element sequence in input order. -/
theorem c4_index_marker_appends :
    (∀ (xs : List GoVal) (v : Option GoVal) (seg : pathSegment)
       (rest : List pathSegment) (val : String),
      seg.index = true →
      (v = none ∧ xs = [] ∨ v = some (.sliceV xs)) →
      inferInterfaceValue v (seg :: rest) val =
        (inferInterfaceValue none rest val).map fun e => .sliceV (xs ++ [e]))
    ∧ Unmarshal "items[]=a&items[]=b&items[]=c" (.mapT .ifaceT) (.mapV []) =
      .ok (.mapV [("items", .sliceV [.str "a", .str "b", .str "c"])]) := by
  refine ⟨?_, rfl⟩
  rintro xs v seg rest val hidx (⟨hv, hxs⟩ | hv)
  · subst hv; subst hxs
    rw [inferInterfaceValue.eq_def]
    simp only [hidx, if_true]
    rw [inferSliceValue.eq_def]
    simp [dynAsSlice]
  · subst hv
    rw [inferInterfaceValue.eq_def]
    simp only [hidx, if_true]
    rw [inferSliceValue.eq_def]
    simp [dynAsSlice]

/-- C4, witness: appending `b` to the existing one-element dynamic
sequence `["a"]`. -/
theorem c4_index_marker_appends_witness :
    inferInterfaceValue (some (.sliceV [.str "a"])) [⟨"", true⟩] "b" =
      (inferInterfaceValue none [] "b").map fun e =>
        .sliceV ([GoVal.str "a"] ++ [e]) :=
  c4_index_marker_appends.1 [.str "a"] (some (.sliceV [.str "a"]))
    ⟨"", true⟩ [] "b" rfl (Or.inr rfl)

/-- C5, counterexample: a channel nested inside a map makes the encoder
PANIC — no error value is returned, contrary to the claim. -/
theorem c5_unsupported_kind_counterexample :
    Marshal (.mapV [("c", .chanV)]) = .panic "form: unsupported type"
    ∧ (Marshal (.mapV [("c", .chanV)])).isErr = false :=
  ⟨rfl, rfl⟩

/-- C5, amended: a channel-like, function-like or complex-number value at
a nested position makes the whole encode panic (producing no output); at
the top level such values are rejected with an error because the root must
be a struct or map. -/
theorem c5_unsupported_kind_panics :
    (∀ (out : Values) (path : List String),
      marshalValue out path .chanV = .panic "form: unsupported type"
      ∧ marshalValue out path .funcV = .panic "form: unsupported type"
      ∧ marshalValue out path .complexV = .panic "form: unsupported type")
    ∧ Marshal (.mapV [("c", .chanV)]) = .panic "form: unsupported type"
    ∧ Marshal (.mapV [("f", .funcV)]) = .panic "form: unsupported type"
    ∧ Marshal (.mapV [("z", .complexV)]) = .panic "form: unsupported type"
    ∧ Marshal (.structV [("Ch", "", .chanV)]) = .panic "form: unsupported type"
    ∧ Marshal .chanV = .err "form: top-level value must be struct or map" :=
  ⟨fun _ _ => ⟨rfl, rfl, rfl⟩, rfl, rfl, rfl, rfl, rfl⟩

/-- C5, witness: the nested-position panic rule at a concrete output
accumulator and path. -/
theorem c5_unsupported_kind_panics_witness :
    marshalValue [] ["x"] .chanV = .panic "form: unsupported type" :=
  (c5_unsupported_kind_panics.1 [] ["x"]).1

/-- C6, counterexample: whitespace-only input is NOT rejected — it is
trimmed to the empty query, decodes zero pairs without error, and leaves
the target unchanged. -/
theorem c6_whitespace_counterexample :
    Unmarshal "   " PersonT (zeroVal PersonT) = .ok (zeroVal PersonT)
    ∧ (Unmarshal "   " PersonT (zeroVal PersonT)).isErr = false :=
  ⟨rfl, rfl⟩

/-- C6, amended: empty input is rejected with an error before any
structural processing, for every target; whitespace-only input is
accepted and leaves the target unchanged. -/
theorem c6_empty_rejected_whitespace_accepted :
    (∀ (t : GoType) (v : GoVal), Unmarshal "" t v = .err "form: empty input")
    ∧ Unmarshal "   " PersonT (zeroVal PersonT) = .ok (zeroVal PersonT)
    ∧ Unmarshal "   " (.mapT .ifaceT) (.mapV []) = .ok (.mapV []) :=
  ⟨fun _ _ => rfl, rfl, rfl⟩

/-- C6, witness: the empty-input rejection at the concrete `Person`
target. -/
theorem c6_empty_rejected_witness :
    Unmarshal "" PersonT (zeroVal PersonT) = .err "form: empty input" :=
  c6_empty_rejected_whitespace_accepted.1 PersonT (zeroVal PersonT)

/-- C7, counterexample: two entry lists that are permutations of each
other — i.e. the SAME Go map, whose iteration order is unspecified —
encode to different byte strings, because the two distinct structural
positions `{"a": {"b": …}}` and `{"a[b]": …}` render to the same path
string `a[b]`, and the relative order of the values under that colliding
key follows iteration order.  Encode output is therefore not byte-identical
across equal values. -/
theorem c7_determinism_counterexample :
    List.Perm
      [("a", GoVal.mapV [("b", GoVal.str "1")]), ("a[b]", GoVal.str "2")]
      [("a[b]", GoVal.str "2"), ("a", GoVal.mapV [("b", GoVal.str "1")])]
    ∧ Marshal (.mapV [("a", .mapV [("b", .str "1")]), ("a[b]", .str "2")]) =
      .ok "a%5Bb%5D=1&a%5Bb%5D=2"
    ∧ Marshal (.mapV [("a[b]", .str "2"), ("a", .mapV [("b", .str "1")])]) =
      .ok "a%5Bb%5D=2&a%5Bb%5D=1"
    ∧ Marshal (.mapV [("a", .mapV [("b", .str "1")]), ("a[b]", .str "2")]) ≠
      Marshal (.mapV [("a[b]", .str "2"), ("a", .mapV [("b", .str "1")])]) :=
  ⟨List.Perm.swap ("a[b]", GoVal.str "2")
      ("a", GoVal.mapV [("b", GoVal.str "1")]) [],
   rfl, rfl, by decide⟩

/-- C7, amended: the serialized output lists its key groups sorted
lexicographically by the rendered path string — the order used by the
serializer is sorted for every accumulated multimap, and `Marshal` is
definitionally that serializer applied to the traversal's multimap. -/
theorem c7_output_key_sorted :
    (∀ vs : Values, List.Sorted (fun a b : String => a ≤ b) (encodeKeyOrder vs))
    ∧ (∀ es : List (String × GoVal),
        Marshal (.mapV es) = (marshalValue [] [] (.mapV es)).map valuesEncode)
    ∧ (∀ fs : List (String × String × GoVal),
        Marshal (.structV fs) =
          (marshalValue [] [] (.structV fs)).map valuesEncode) := by
  refine ⟨?_, fun _ => rfl, fun _ => rfl⟩
  intro vs
  exact List.sorted_insertionSort _ _

/-- C7, witness: the serializer's key order at a concrete unsorted
multimap. -/
theorem c7_output_key_sorted_witness :
    List.Sorted (fun a b : String => a ≤ b)
      (encodeKeyOrder [("b", ["1"]), ("a", ["2"])]) :=
  c7_output_key_sorted.1 [("b", ["1"]), ("a", ["2"])]

/-- C8, counterexample: the empty raw key has no brackets, yet it parses
to the EMPTY path, not to a single named segment equal to the whole
key. -/
theorem c8_empty_key_counterexample :
    parseKey "" = .ok [] ∧ parseKey "" ≠ .ok [⟨"", false⟩] :=
  ⟨rfl, by decide⟩

/-- C8, amended: path parsing fails exactly when the raw key contains a
`[` with no `]` anywhere after it (and it never panics); every other key
parses successfully, and a NONEMPTY key with no `[` yields a single named
segment equal to the whole key (the empty key yields the empty path). -/
theorem c8_error_iff_unmatched_bracket :
    (∀ key : List Char,
      ((parseKeyAux key).isErr = true ↔
        ∃ pre suf, key = pre ++ '[' :: suf ∧ ']' ∉ suf))
    ∧ (∀ key : List Char, (parseKeyAux key).isPanic = false)
    ∧ (∀ key : List Char,
        ¬(∃ pre suf, key = pre ++ '[' :: suf ∧ ']' ∉ suf) →
        ∃ ps, parseKeyAux key = .ok ps)
    ∧ (∀ key : List Char, key ≠ [] → '[' ∉ key →
        parseKeyAux key = .ok [⟨String.mk key, false⟩]) := by
  have herr : ∀ key : List Char,
      ((parseKeyAux key).isErr = true ↔
        ∃ pre suf, key = pre ++ '[' :: suf ∧ ']' ∉ suf) := by
    intro key
    rw [parseKeyAux_isErr key]
    exact hasUnmatched_iff key
  refine ⟨herr, ?_, ?_, ?_⟩
  · intro key
    exact parseKeyAux_not_panic key.length key (Nat.le_refl _)
  · intro key hno
    cases hr : parseKeyAux key with
    | ok ps => exact ⟨ps, rfl⟩
    | err m =>
      exfalso
      apply hno
      have : (parseKeyAux key).isErr = true := by rw [hr]; rfl
      exact (herr key).mp this
    | panic m =>
      exfalso
      have := parseKeyAux_not_panic key.length key (Nat.le_refl _)
      rw [hr] at this
      cases this
  · intro key hne hno
    cases key with
    | nil => exact absurd rfl hne
    | cons x xs =>
      have h1 : splitFirst '[' (x :: xs) = none :=
        (splitFirst_none_iff _ _).mpr hno
      rw [parseKeyAux.eq_def]
      split
      · rename_i heq
        simp at heq
      · split
        · rfl
        · rename_i before2 after2 hs
          rw [h1] at hs
          cases hs

/-- C8, witness: the characterization evaluated at the bracketless key
`plain` and the unterminated key `a[b`. -/
theorem c8_error_iff_witness :
    parseKeyAux "plain".data = .ok [⟨"plain", false⟩]
    ∧ (parseKeyAux "a[b".data).isErr = true := by
  constructor
  · exact c8_error_iff_unmatched_bracket.2.2.2 "plain".data (by decide) (by decide)
  · exact (c8_error_iff_unmatched_bracket.1 "a[b".data).mpr
      ⟨['a'], ['b'], by decide, by decide⟩

/-- Per-thread safety of the cache protocol: a staged (`toStore`) or
returned (`done`) entry is exactly the parsed field-tag metadata. -/
def goodPC (fields : List (String × String)) : CachePC → Prop
  | .toStore r => r = tagsOfFields fields
  | .done r => r = tagsOfFields fields
  | _ => True

/-- The protocol invariant: the cache cell is either empty or holds exactly
the parsed metadata, and both threads' staged and returned entries are
exactly the parsed metadata. -/
def cacheInv (fields : List (String × String)) (s : CacheState) : Prop :=
  (s.cache = none ∨ s.cache = some (tagsOfFields fields))
  ∧ goodPC fields s.pc1 ∧ goodPC fields s.pc2

theorem cacheStepPC_preserves (fields : List (String × String))
    (cache : Option (List TagRec)) (pc : CachePC)
    (hcache : cache = none ∨ cache = some (tagsOfFields fields))
    (hpc : goodPC fields pc) :
    ((cacheStepPC fields cache pc).1 = none ∨
      (cacheStepPC fields cache pc).1 = some (tagsOfFields fields))
    ∧ goodPC fields (cacheStepPC fields cache pc).2.1 := by
  cases pc with
  | beforeLoad =>
    rcases hcache with hn | hs
    · rw [hn]
      exact ⟨Or.inl rfl, trivial⟩
    · rw [hs]
      exact ⟨Or.inr rfl, rfl⟩
  | toCompute => exact ⟨hcache, rfl⟩
  | toStore r =>
    have hr : r = tagsOfFields fields := hpc
    exact ⟨Or.inr (by rw [hr]; rfl), hr⟩
  | done r => exact ⟨hcache, hpc⟩

theorem cacheStep_preserves (fields : List (String × String)) (who : Bool)
    (s : CacheState) (h : cacheInv fields s) :
    cacheInv fields (cacheStep fields who s) := by
  obtain ⟨hc, h1, h2⟩ := h
  cases who with
  | false =>
    have hp := cacheStepPC_preserves fields s.cache s.pc2 hc h2
    exact ⟨hp.1, h1, hp.2⟩
  | true =>
    have hp := cacheStepPC_preserves fields s.cache s.pc1 hc h1
    exact ⟨hp.1, hp.2, h2⟩

theorem cacheRun_inv (fields : List (String × String)) (sched : List Bool) :
    cacheInv fields (cacheRun fields sched) := by
  suffices h : ∀ (s : CacheState), cacheInv fields s →
      cacheInv fields (sched.foldl (fun s who => cacheStep fields who s) s) from
    h cacheInit ⟨Or.inl rfl, trivial, trivial⟩
  induction sched with
  | nil => exact fun s hs => hs
  | cons w ws ih => exact fun s hs => ih _ (cacheStep_preserves fields w s hs)

/-- C9, counterexample: the schedule "thread 1 loads (miss), thread 2
loads (miss), thread 1 computes and stores, thread 2 computes and stores"
computes the field-tag metadata TWICE — the `Load`-then-`Store` cache does
not guarantee at-most-once computation under concurrent first access. -/
theorem c9_at_most_once_counterexample :
    (cacheRun [("Name", "name")]
        [true, false, true, true, false, false]).computes = 2
    ∧ ¬((cacheRun [("Name", "name")]
        [true, false, true, true, false, false]).computes ≤ 1) :=
  ⟨rfl, by decide⟩

/-- C9, amended: under every interleaving of two concurrent first
accesses, racing threads may each compute the metadata (so at-most-once is
not guaranteed), but the race is benign: the cache only ever holds the
fully-populated parsed metadata, and every thread that completes returns
exactly that metadata. -/
theorem c9_cache_correct_under_races :
    ∀ (fields : List (String × String)) (sched : List Bool),
      ((cacheRun fields sched).cache = none ∨
        (cacheRun fields sched).cache = some (tagsOfFields fields))
      ∧ (∀ r, (cacheRun fields sched).pc1 = .done r →
          r = tagsOfFields fields)
      ∧ (∀ r, (cacheRun fields sched).pc2 = .done r →
          r = tagsOfFields fields) := by
  intro fields sched
  obtain ⟨hc, h1, h2⟩ := cacheRun_inv fields sched
  refine ⟨hc, ?_, ?_⟩
  · intro r hr
    rw [hr] at h1
    exact h1
  · intro r hr
    rw [hr] at h2
    exact h2

/-- C9, witness: after the racy schedule the cache holds exactly the
parsed metadata. -/
theorem c9_cache_correct_witness :
    (cacheRun [("Name", "name")] [true, false, true, true, false, false]).cache =
      some (tagsOfFields [("Name", "name")]) := by
  have h := c9_cache_correct_under_races [("Name", "name")]
    [true, false, true, true, false, false]
  rcases h.1 with h1 | h1
  · exact absurd h1 (by decide)
  · exact h1

/-- C10: when the mapping's element type is a typed (non-dynamic) slice,
an assignment through a mapping key appends exactly one new element with
the leaf assigned directly to it, and every path segment remaining after
the mapping key is ignored — the result does not depend on the remaining
path at all, so `m[k][]=v` and `m[k]=v` decode identically. -/
theorem c10_map_slice_append_ignores_path :
    (∀ (τ : GoType) (entries : List (String × GoVal)) (seg : pathSegment)
       (p1 p2 : List pathSegment) (val : String),
      assignMapValue (.sliceT τ) entries seg p1 val =
        assignMapValue (.sliceT τ) entries seg p2 val)
    ∧ (∀ (entries : List (String × GoVal)) (seg : pathSegment)
         (rest : List pathSegment) (val : String) (xs : List GoVal),
        entries.lookup seg.key = some (.sliceV xs) →
        assignMapValue (.sliceT .stringT) entries seg rest val =
          .ok (.mapV (updateEntry entries seg.key
            (.sliceV (xs ++ [.str val])))))
    ∧ Unmarshal "m[k][]=v" (.mapT (.sliceT .stringT)) (.mapV []) =
      Unmarshal "m[k]=v" (.mapT (.sliceT .stringT)) (.mapV [])
    ∧ Unmarshal "m[k][]=v" (.mapT (.sliceT .stringT)) (.mapV []) =
      .ok (.mapV [("m", .sliceV [.str "v"])]) := by
  refine ⟨?_, ?_, rfl, rfl⟩
  · intro τ entries seg p1 p2 val
    rw [assignMapValue.eq_def, assignMapValue.eq_def]
  · intro entries seg rest val xs hlk
    rw [assignMapValue.eq_def]
    simp [hlk, assignLeaf, asUnmarshaler, setScalar]

/-- C10, witness: appending `"b"` to the existing element list under key
`k`, with a nonempty remaining path that is ignored. -/
theorem c10_map_slice_append_witness :
    assignMapValue (.sliceT .stringT) [("k", .sliceV [.str "a"])]
        ⟨"k", false⟩ [⟨"", true⟩] "b" =
      .ok (.mapV (updateEntry [("k", GoVal.sliceV [.str "a"])] "k"
        (.sliceV ([GoVal.str "a"] ++ [.str "b"])))) :=
  c10_map_slice_append_ignores_path.2.1 [("k", .sliceV [.str "a"])]
    ⟨"k", false⟩ [⟨"", true⟩] "b" [.str "a"] rfl

end Formenc
